import Mathlib

/-!
Verification of the sherpa-onnx TTS model-catalog generator
(scripts/catalog/generate_sherpa_model_catalog.py).

The Python module is embedded shallowly: strings become `List Char`
(Python compares and orders strings by code point, which matches the
`Char.toNat` order used here), the pure classification / picking /
assembling functions become Lean functions of the same shape, and the
top-level per-repository loop becomes an explicit fold over a state
record.  The HTTP layer is out of scope and is represented by a
file-lister parameter returning `Option` (`none` is the "unavailable"
sentinel).  Unicode-specific corners that no file name in scope can
exercise (non-ASCII case mapping, `$` matching before a trailing
newline in `re`) are embedded with their ASCII meaning.
-/

set_option maxRecDepth 8192

namespace SherpaCatalog

/-- Convert a Lean string literal to the `List Char` representation used
throughout the embedding. -/
def str (s : String) : List Char := s.toList

/-! ### Character classes -/

/-- ASCII lower-case letter, the `a-z` range of the regexes. -/
def isLowerAZ (c : Char) : Bool := 97 ≤ c.toNat && c.toNat ≤ 122

/-- ASCII upper-case letter, the `A-Z` range of the regexes. -/
def isUpperAZ (c : Char) : Bool := 65 ≤ c.toNat && c.toNat ≤ 90

/-- ASCII digit, the `0-9` range (and `\d`) of the regexes. -/
def isDigit09 (c : Char) : Bool := 48 ≤ c.toNat && c.toNat ≤ 57

/-- Word character for the `\b` boundaries of `_best_effort_language`. -/
def isWordChar (c : Char) : Bool := isLowerAZ c || isUpperAZ c || isDigit09 c || decide (c = '_')

/-- Characters NOT rewritten by `re.sub(r"[^a-z0-9\\-]+", "-", s)` in
`_normalize_id`.  The pattern is a raw Python string, so `\\` denotes a
single literal backslash inside the character class: the class kept by
the substitution is lower-case letters, digits, the backslash (code
point 92) and the hyphen. -/
def allowedChar (c : Char) : Bool := isLowerAZ c || isDigit09 c || decide (c.toNat = 92) || decide (c = '-')

/-! ### Python string primitives -/

/-- Python substring test (`pat in hay`). -/
def hasSubstr (pat : List Char) : List Char → Bool
  | [] => pat.isPrefixOf []
  | c :: t => pat.isPrefixOf (c :: t) || hasSubstr pat t

/-- Drop trailing characters satisfying `p`; together with
`List.dropWhile` this embeds Python `str.strip`. -/
def dropTrailingWhile (p : Char → Bool) : List Char → List Char
  | [] => []
  | c :: cs =>
    match dropTrailingWhile p cs with
    | [] => if p c then [] else [c]
    | r => c :: r

/-- Python `s.strip(chars)`: remove the matching characters from both ends. -/
def pyStrip (p : Char → Bool) (l : List Char) : List Char :=
  dropTrailingWhile p (l.dropWhile p)

/-- Python `s.split("-")`; the result is never empty. -/
def splitOnHyphen : List Char → List (List Char)
  | [] => [[]]
  | c :: cs =>
    let r := splitOnHyphen cs
    if c = '-' then [] :: r
    else
      match r with
      | [] => [[c]]
      | x :: xs => (c :: x) :: xs

/-- Python `" ".join(parts)`. -/
def joinSpace (parts : List (List Char)) : List Char :=
  List.intercalate (str " ") parts

/-- Python `s.replace("_", "-")`. -/
def underscoreToHyphen (l : List Char) : List Char :=
  l.map fun c => if c = '_' then '-' else c

/-! ### Identifier normalizer (`_normalize_id`) -/

/-- One pass of `re.sub(r"[^a-z0-9\\-]+", "-", s)`: every maximal run of
characters outside `allowedChar` becomes a single hyphen.  The boolean
state records whether the previous input character was part of a run
that already emitted its hyphen. -/
def subBadRunsAux : Bool → List Char → List Char
  | _, [] => []
  | prevBad, c :: cs =>
    if allowedChar c then c :: subBadRunsAux false cs
    else if prevBad then subBadRunsAux true cs
    else '-' :: subBadRunsAux true cs

def subBadRuns (l : List Char) : List Char := subBadRunsAux false l

/-- `re.sub(r"-{2,}", "-", s)`: collapse runs of two or more hyphens.
The boolean state records whether the previous character was a hyphen. -/
def collapseHyphensAux : Bool → List Char → List Char
  | _, [] => []
  | prevH, c :: cs =>
    if c = '-' then
      if prevH then collapseHyphensAux true cs
      else '-' :: collapseHyphensAux true cs
    else c :: collapseHyphensAux false cs

def collapseHyphens (l : List Char) : List Char := collapseHyphensAux false l

/-- `_normalize_id`: `repo_name.strip().lower().replace("_", "-")`, then
the two regex substitutions, then `.strip("-")`. -/
def normalizeId (repoName : List Char) : List Char :=
  let s1 := pyStrip Char.isWhitespace repoName
  let s2 := s1.map Char.toLower
  let s3 := underscoreToHyphen s2
  let s4 := subBadRuns s3
  let s5 := collapseHyphens s4
  pyStrip (fun c => decide (c = '-')) s5

/-! ### Root files and asset pickers -/

/-- `_root_files`: files whose path contains no `/`. -/
def rootFiles (files : List (List Char)) : List (List Char) :=
  files.filter fun f => !(f.any fun c => decide (c = '/'))

/-- `_pick_one`: first candidate present in the available set. -/
def pickOne : List (List Char) → List (List Char) → Option (List Char)
  | [], _ => none
  | c :: rest, avail => if c ∈ avail then some c else pickOne rest avail

/-- `_pick_single_root_onnx`: the unique root `.onnx` file, if exactly one. -/
def pickSingleRootOnnx (root : List (List Char)) : Option (List Char) :=
  match root.filter (fun f => (str ".onnx").isSuffixOf f) with
  | [f] => some f
  | _ => none

/-- `_pick_vits_onnx`. -/
def pickVitsOnnx (root : List (List Char)) : Option (List Char) :=
  match pickOne [str "model.int8.onnx", str "model.fp16.onnx", str "model.onnx"] root with
  | some f => some f
  | none => pickSingleRootOnnx root

/-- `_pick_kokoro_onnx`. -/
def pickKokoroOnnx (root : List (List Char)) : Option (List Char) :=
  match pickOne [str "model.int8.onnx", str "model.onnx"] root with
  | some f => some f
  | none => pickSingleRootOnnx root

/-- `_pick_kitten_onnx`. -/
def pickKittenOnnx (root : List (List Char)) : Option (List Char) :=
  match pickOne [str "model.fp16.onnx", str "model.onnx", str "model.int8.onnx"] root with
  | some f => some f
  | none => pickSingleRootOnnx root

/-- Numeric value of a digit string (matches Python `int` on the digits
captured by `(\d+)`, leading zeros included). -/
def digitsVal (ds : List Char) : Nat :=
  ds.foldl (fun n c => 10 * n + (c.toNat - 48)) 0

/-- `_MATCHA_STEPS_RE.match(f)` followed by `int(m.group(1))`:
`^model-steps-(\d+)\.onnx$`. -/
def matchaSteps (f : List Char) : Option Nat :=
  if (str "model-steps-").isPrefixOf f then
    let rest := f.drop (str "model-steps-").length
    let ds := rest.takeWhile isDigit09
    let tl := rest.dropWhile isDigit09
    if ds ≠ [] ∧ tl = str ".onnx" then some (digitsVal ds) else none
  else none

/-- Ordering on `(steps, file)` pairs used by `step_files.sort(key=...)`. -/
def stepLe (a b : Nat × List Char) : Prop := a.1 ≤ b.1

instance : DecidableRel stepLe := fun a b => inferInstanceAs (Decidable (a.1 ≤ b.1))

instance : IsTotal (Nat × List Char) stepLe := ⟨fun a b => Nat.le_total a.1 b.1⟩

instance : IsTrans (Nat × List Char) stepLe := ⟨fun _ _ _ => Nat.le_trans⟩

/-- The loop body collecting `step_files`: a root file matching the steps
pattern contributes its `(int(m.group(1)), f)` pair. -/
def stepPair (f : List Char) : Option (Nat × List Char) :=
  match matchaSteps f with
  | some n => some (n, f)
  | none => none

/-- `_pick_matcha_acoustic`: prefer the literal 3-step checkpoint, then the
step checkpoint with the numerically smallest step count (stable sort by
the captured integer, first element), then `model.onnx`, then the
single-`.onnx` fallback. -/
def pickMatchaAcoustic (root : List (List Char)) : Option (List Char) :=
  if str "model-steps-3.onnx" ∈ root then some (str "model-steps-3.onnx")
  else
    match List.insertionSort stepLe (root.filterMap stepPair) with
    | x :: _ => some x.2
    | [] =>
      if str "model.onnx" ∈ root then some (str "model.onnx")
      else pickSingleRootOnnx root

/-! ### Lexical order on strings and Python `sorted` -/

/-- Strict code-point lexicographic order on strings, as used by Python
string comparison. -/
def lexLtB : List Char → List Char → Bool
  | _, [] => false
  | [], _ :: _ => true
  | a :: as, b :: bs => decide (a < b) || (decide (a = b) && lexLtB as bs)

/-- Non-strict lexicographic order (`a <= b` on Python strings). -/
def strLe (a b : List Char) : Prop := lexLtB b a = false

instance : DecidableRel strLe := fun a b => inferInstanceAs (Decidable (lexLtB b a = false))

/-- Python `sorted` on a list of strings (ascending code-point order;
insertion sort is stable, like Python's sort). -/
def pySorted (l : List (List Char)) : List (List Char) :=
  List.insertionSort strLe l

/-! ### Auxiliary-file collection and signatures -/

/-- `re.match(r"^lexicon.*\.txt$", f)` (the `.` of `re` does not match a
newline; file names containing newlines are outside the scope of the
embedding). -/
def isLexiconTxt (f : List Char) : Bool :=
  (str "lexicon").isPrefixOf f && (str ".txt").isSuffixOf f

/-- The VITS lexicon pattern `^lexicon.*\.txt$|^lexicon\.txt$` (the right
alternative is subsumed by the left one but is kept for shape). -/
def isLexiconTxtOrPlain (f : List Char) : Bool :=
  isLexiconTxt f || decide (f = str "lexicon.txt")

/-- `re.match(r"^.*\.fst$", f)`. -/
def isFstFile (f : List Char) : Bool := (str ".fst").isSuffixOf f

/-- `re.match(r"^.*\.far$", f)`. -/
def isFarFile (f : List Char) : Bool := (str ".far").isSuffixOf f

/-- `_collect_root_matching`: the sorted list of root files matching a
pattern. -/
def collectRootMatching (root : List (List Char)) (p : List Char → Bool) : List (List Char) :=
  pySorted (root.filter p)

/-- `_has_prefix(files, prefix)`. -/
def anyStartsWith (files : List (List Char)) (pre : List Char) : Bool :=
  files.any fun f => pre.isPrefixOf f

/-! ### Best-effort language tag (`_best_effort_language`)

`re.search` with fixed-length patterns delimited by `\b`: scan positions
left to right, keeping track of the previous character for the left
word boundary. -/

def boundaryBefore : Option Char → Bool
  | none => true
  | some c => !(isWordChar c)

def boundaryAfter : List Char → Bool
  | [] => true
  | c :: _ => !(isWordChar c)

/-- `\b([a-z]{2}_[A-Z]{2})\b` at one position. -/
def matchLangUnderUpper (prev : Option Char) (l : List Char) : Option (List Char) :=
  match l with
  | a :: b :: u :: c :: d :: rest =>
    if boundaryBefore prev && isLowerAZ a && isLowerAZ b && decide (u = '_') &&
        isUpperAZ c && isUpperAZ d && boundaryAfter rest then
      some [a, b, u, c, d]
    else none
  | _ => none

/-- `\b([a-z]{2}-[A-Z]{2})\b` at one position. -/
def matchLangDashUpper (prev : Option Char) (l : List Char) : Option (List Char) :=
  match l with
  | a :: b :: u :: c :: d :: rest =>
    if boundaryBefore prev && isLowerAZ a && isLowerAZ b && decide (u = '-') &&
        isUpperAZ c && isUpperAZ d && boundaryAfter rest then
      some [a, b, u, c, d]
    else none
  | _ => none

/-- `\b([a-z]{2}_[a-z]{2})\b` at one position. -/
def matchLangUnderLower (prev : Option Char) (l : List Char) : Option (List Char) :=
  match l with
  | a :: b :: u :: c :: d :: rest =>
    if boundaryBefore prev && isLowerAZ a && isLowerAZ b && decide (u = '_') &&
        isLowerAZ c && isLowerAZ d && boundaryAfter rest then
      some [a, b, u, c, d]
    else none
  | _ => none

/-- `\b([a-z]{2})\b` at one position. -/
def matchLangBare (prev : Option Char) (l : List Char) : Option (List Char) :=
  match l with
  | a :: b :: rest =>
    if boundaryBefore prev && isLowerAZ a && isLowerAZ b && boundaryAfter rest then
      some [a, b]
    else none
  | _ => none

/-- Leftmost match of a positional matcher (`re.search`). -/
def scanFind (f : Option Char → List Char → Option (List Char)) :
    Option Char → List Char → Option (List Char)
  | prev, [] => f prev []
  | prev, c :: cs =>
    match f prev (c :: cs) with
    | some r => some r
    | none => scanFind f (some c) cs

def bestEffortLanguage (repoName : List Char) : List Char :=
  match scanFind matchLangUnderUpper none repoName with
  | some g => g
  | none =>
    match scanFind matchLangDashUpper none repoName with
    | some g => g
    | none =>
      match scanFind matchLangUnderLower none repoName with
      | some g => g
      | none =>
        match scanFind matchLangBare none repoName with
        | some g => g
        | none => str "unknown"

/-! ### Display names (`_display_name`) -/

def displayName (repoName modelType variant : List Char) : List Char :=
  if modelType = str "vits" then
    if (str "vits-piper-").isPrefixOf repoName then
      let rest := repoName.drop (str "vits-piper-").length
      let parts := splitOnHyphen rest
      let locale := match parts with
        | [] => str "unknown"
        | p :: _ => p
      let voice := if 2 ≤ parts.length then parts.getD 1 [] else []
      let qual := if 3 ≤ parts.length then joinSpace (parts.drop 2) else []
      let bits := pyStrip Char.isWhitespace
        (joinSpace (([underscoreToHyphen locale, voice, qual].filter fun x => !x.isEmpty)))
      str "Piper VITS (" ++ bits ++ str ")"
    else if (str "vits-coqui-").isPrefixOf repoName then
      str "Coqui VITS (" ++ repoName.drop (str "vits-coqui-").length ++ str ")"
    else if (str "vits-mimic3-").isPrefixOf repoName then
      str "Mimic3 VITS (" ++ repoName.drop (str "vits-mimic3-").length ++ str ")"
    else if (str "icefall-tts-").isPrefixOf repoName then
      str "Icefall VITS (" ++ repoName.drop (str "icefall-tts-").length ++ str ")"
    else str "VITS (" ++ repoName ++ str ")"
  else if modelType = str "matcha" then
    let base := if (str "matcha-").isPrefixOf repoName then
        repoName.drop (str "matcha-").length
      else repoName
    let name := str "Matcha (" ++ base ++ str ")"
    if variant ≠ [] then name ++ str " + " ++ variant else name
  else if modelType = str "kokoro" then
    let base := if (str "kokoro-").isPrefixOf repoName then
        repoName.drop (str "kokoro-").length
      else repoName
    str "Kokoro (" ++ base ++ str ")"
  else if modelType = str "kitten" then
    let base := if (str "kitten-").isPrefixOf repoName then
        repoName.drop (str "kitten-").length
      else repoName
    str "Kitten (" ++ base ++ str ")"
  else repoName

/-! ### Catalog entries and the classifier (`_classify_repo`)

Fields shared by every dynamic entry and constant in the source
(`source.kind = "hf"`, `source.rev = "main"`, `meta.size_hint_mb = 0`)
are not repeated in the record; an omitted `dependencies` key is
represented by the empty list (the source omits the key exactly when
the list is empty). -/

structure Entry where
  id : List Char
  display_name : List Char
  engine : List Char
  model_type : List Char
  source_repo : List Char
  files : List (List Char)
  prefixes : List (List Char)
  dependencies : List (List Char)
  languages : List Char
  description : List Char
deriving DecidableEq

/-- `_make_entry` (field-for-field, with the constants noted above). -/
def makeEntry (modelId dispName engine modelType sourceRepo : List Char)
    (files prefixes dependencies : List (List Char))
    (languages description : List Char) : Entry :=
  ⟨modelId, dispName, engine, modelType, sourceRepo, files, prefixes, dependencies,
    languages, description⟩

/-- `dep_espeak()` inside `_classify_repo`. -/
def depEspeak (files : List (List Char)) : List (List Char) :=
  if anyStartsWith files (str "espeak-ng-data/") then [str "sherpa-espeak-ng-data"] else []

/-- The `prefixes` value computed at the top of `_classify_repo`. -/
def dictPrefixes (files : List (List Char)) : List (List Char) :=
  if anyStartsWith files (str "dict/") then [str "dict/"] else []

/-- The Matcha membership test:
`"matcha" in repo_name or any(_MATCHA_STEPS_RE.match(f) for f in root)`. -/
def matchaTrigger (repoName : List Char) (files : List (List Char)) : Bool :=
  hasSubstr (str "matcha") repoName ||
    (rootFiles files).any fun f => (matchaSteps f).isSome

/-- The Matcha branch of `_classify_repo`: two entries, one per vocoder. -/
def matchaEntries (repoId repoName : List Char) (files : List (List Char)) : List Entry :=
  let root := rootFiles files
  if str "tokens.txt" ∈ root then
    match pickMatchaAcoustic root with
    | none => []
    | some acoustic =>
      let baseId := normalizeId repoName
      let lang := bestEffortLanguage repoName
      let commonFiles := [acoustic, str "tokens.txt"]
      [⟨baseId ++ str "-hifigan",
        displayName repoName (str "matcha") (str "HiFiGAN"),
        str "sherpa_offline_tts", str "matcha", repoId,
        commonFiles, dictPrefixes files,
        str "sherpa-hifigan-v3" :: depEspeak files,
        lang, str "Matcha acoustic model via sherpa-onnx OfflineTtsMatchaModelConfig."⟩,
       ⟨baseId ++ str "-vocos",
        displayName repoName (str "matcha") (str "Vocos"),
        str "sherpa_offline_tts", str "matcha", repoId,
        commonFiles, dictPrefixes files,
        str "sherpa-vocos-22khz-univ" :: depEspeak files,
        lang, str "Matcha acoustic model via sherpa-onnx OfflineTtsMatchaModelConfig."⟩]
  else []

/-- The Kokoro branch of `_classify_repo`. -/
def kokoroEntries (repoId repoName : List Char) (files : List (List Char)) : List Entry :=
  let root := rootFiles files
  if str "tokens.txt" ∈ root ∧ str "voices.bin" ∈ root then
    match pickKokoroOnnx root with
    | none => []
    | some onnx =>
      [makeEntry (normalizeId repoName)
        (displayName repoName (str "kokoro") [])
        (str "sherpa_offline_tts") (str "kokoro") repoId
        ([onnx, str "tokens.txt", str "voices.bin"] ++
          collectRootMatching root isLexiconTxt ++ collectRootMatching root isFstFile)
        (dictPrefixes files) (depEspeak files)
        (bestEffortLanguage repoName)
        (str "Kokoro TTS via sherpa-onnx OfflineTtsKokoroModelConfig.")]
  else []

/-- The Kitten branch of `_classify_repo`. -/
def kittenEntries (repoId repoName : List Char) (files : List (List Char)) : List Entry :=
  let root := rootFiles files
  if str "tokens.txt" ∈ root ∧ str "voices.bin" ∈ root then
    match pickKittenOnnx root with
    | none => []
    | some onnx =>
      [makeEntry (normalizeId repoName)
        (displayName repoName (str "kitten") [])
        (str "sherpa_offline_tts") (str "kitten") repoId
        [onnx, str "tokens.txt", str "voices.bin"]
        (dictPrefixes files) (depEspeak files)
        (bestEffortLanguage repoName)
        (str "Kitten TTS via sherpa-onnx OfflineTtsKittenModelConfig.")]
  else []

/-- The hand-designated canonical Coqui repository (`OFFICIAL_COQUI_REPO`). -/
def officialCoquiRepo : List Char := str "vits-coqui-en-ljspeech"

/-- The VITS branch of `_classify_repo`, including the Coqui dedup rule. -/
def vitsEntries (repoId repoName : List Char) (files : List (List Char)) : List Entry :=
  let root := rootFiles files
  if (str "vits-coqui-").isPrefixOf repoName ∧ repoName ≠ officialCoquiRepo then []
  else if str "tokens.txt" ∈ root then
    match pickVitsOnnx root with
    | none => []
    | some onnx =>
      [makeEntry (normalizeId repoName)
        (displayName repoName (str "vits") [])
        (str "sherpa_offline_tts") (str "vits") repoId
        ([onnx, str "tokens.txt"] ++
          collectRootMatching root isLexiconTxtOrPlain ++
          collectRootMatching root isFarFile ++ collectRootMatching root isFstFile)
        (dictPrefixes files) (depEspeak files)
        (bestEffortLanguage repoName)
        (str "VITS voice via sherpa-onnx OfflineTtsVitsModelConfig.")]
  else []

/-- `_classify_repo`: the family dispatch cascade. -/
def classifyRepo (repoId repoName : List Char) (files : List (List Char)) : List Entry :=
  if matchaTrigger repoName files then matchaEntries repoId repoName files
  else if hasSubstr (str "kokoro") repoName then kokoroEntries repoId repoName files
  else if hasSubstr (str "kitten") repoName then kittenEntries repoId repoName files
  else if hasSubstr (str "vits") repoName then vitsEntries repoId repoName files
  else []

/-! ### Catalog assembly (`main`, lines 512-518) -/

/-- Python dict assignment `by_id[k] = v` on an insertion-ordered
association list. -/
def upsert (m : List (List Char × Entry)) (k : List Char) (v : Entry) :
    List (List Char × Entry) :=
  match m with
  | [] => [(k, v)]
  | (k0, v0) :: rest => if k0 = k then (k0, v) :: rest else (k0, v0) :: upsert rest k v

/-- `by_id = {}; for e in entries: by_id[e["id"]] = e`. -/
def buildById (entries : List Entry) : List (List Char × Entry) :=
  entries.foldl (fun m e => upsert m e.id e) []

/-- Dict lookup on the association list. -/
def lookupById (m : List (List Char × Entry)) (k : List Char) : Option Entry :=
  match m with
  | [] => none
  | (k0, v) :: rest => if k0 = k then some v else lookupById rest k

/-- `dyn_entries = [by_id[k] for k in sorted(by_id.keys())]`. -/
def dynEntriesOf (entries : List Entry) : List Entry :=
  let m := buildById entries
  (pySorted (m.map Prod.fst)).filterMap (lookupById m)

/-- `models = _fixed_entries() + dyn_entries` (generic in the fixed list). -/
def assembleModels (fixed dyn : List Entry) : List Entry :=
  fixed ++ dynEntriesOf dyn

/-- Proof-side reference function: the last entry in a list carrying a
given id (what dict last-write-wins keeps). -/
def findLastById : List Entry → List Char → Option Entry
  | [], _ => none
  | e :: rest, k =>
    match findLastById rest k with
    | some r => some r
    | none => if e.id = k then some e else none

/-! ### The per-repository run loop (`main`, lines 497-510) -/

structure RunState where
  entries : List Entry
  skipped : Nat
  gated : Nat
deriving DecidableEq

/-- `repo_id.split("/", 1)[1]` (total embedding; every discovered id has
the form `author/name`). -/
def repoNameOf (repoId : List Char) : List Char :=
  (repoId.dropWhile fun c => decide (c ≠ '/')).drop 1

/-- One iteration of the loop body: the file lister `sib` stands for the
cached `_hf_siblings` call, returning `none` for an unavailable
(gated/private/missing) repository. -/
def stepRepo (sib : List Char → Option (List (List Char))) (st : RunState)
    (repoId : List Char) : RunState :=
  match sib repoId with
  | none => ⟨st.entries, st.skipped, st.gated + 1⟩
  | some files =>
    match classifyRepo repoId (repoNameOf repoId) files with
    | [] => ⟨st.entries, st.skipped + 1, st.gated⟩
    | cls => ⟨st.entries ++ cls, st.skipped, st.gated⟩

/-- The whole loop over the sorted discovered repository ids. -/
def runLoop (sib : List Char → Option (List (List Char)))
    (repos : List (List Char)) (st : RunState) : RunState :=
  repos.foldl (stepRepo sib) st

/-! ### Proof-side predicates for normalizer invariants -/

/-- No two consecutive hyphens. -/
def noDoubleHyphen : List Char → Bool
  | [] => true
  | [_] => true
  | a :: b :: rest => !(decide (a = '-') && decide (b = '-')) && noDoubleHyphen (b :: rest)

/-- The first character, if any, is not a hyphen. -/
def headNotHyphen : List Char → Prop
  | [] => True
  | c :: _ => c ≠ '-'

/-- The last character, if any, is not a hyphen. -/
def lastNotHyphen : List Char → Bool
  | [] => true
  | [c] => !(decide (c = '-'))
  | _ :: c :: rest => lastNotHyphen (c :: rest)

/-!
## Claims
-/

/-! ### Lexicographic-order facts used by the assembler claims -/

theorem lexLtB_irrefl (l : List Char) : lexLtB l l = false := by
  induction l with
  | nil => rfl
  | cons a as ih => simp [lexLtB, ih, lt_irrefl]

theorem lexLtB_trans {a b c : List Char} (hab : lexLtB a b = true) (hbc : lexLtB b c = true) :
    lexLtB a c = true := by
  induction a generalizing b c with
  | nil =>
    cases b with
    | nil => simp [lexLtB] at hab
    | cons y ys =>
      cases c with
      | nil => simp [lexLtB] at hbc
      | cons z zs => rfl
  | cons x xs ih =>
    cases b with
    | nil => simp [lexLtB] at hab
    | cons y ys =>
      cases c with
      | nil => simp [lexLtB] at hbc
      | cons z zs =>
        simp only [lexLtB, Bool.or_eq_true, Bool.and_eq_true, decide_eq_true_eq] at hab hbc ⊢
        rcases hab with h1 | ⟨h1, h1'⟩
        · rcases hbc with h2 | ⟨h2, h2'⟩
          · exact Or.inl (lt_trans h1 h2)
          · exact Or.inl (h2 ▸ h1)
        · rcases hbc with h2 | ⟨h2, h2'⟩
          · exact Or.inl (h1 ▸ h2)
          · exact Or.inr ⟨h1.trans h2, ih h1' h2'⟩

theorem lexLtB_total (a b : List Char) : lexLtB a b = true ∨ a = b ∨ lexLtB b a = true := by
  induction a generalizing b with
  | nil =>
    cases b with
    | nil => exact Or.inr (Or.inl rfl)
    | cons y ys => exact Or.inl rfl
  | cons x xs ih =>
    cases b with
    | nil => exact Or.inr (Or.inr rfl)
    | cons y ys =>
      rcases lt_trichotomy x y with h | h | h
      · exact Or.inl (by simp [lexLtB, h])
      · subst h
        rcases ih ys with h2 | h2 | h2
        · exact Or.inl (by simp [lexLtB, h2])
        · exact Or.inr (Or.inl (by rw [h2]))
        · exact Or.inr (Or.inr (by simp [lexLtB, h2]))
      · exact Or.inr (Or.inr (by simp [lexLtB, h]))

instance : IsTotal (List Char) strLe := by
  constructor
  intro a b
  unfold strLe
  rcases h : lexLtB b a with _ | _
  · exact Or.inl rfl
  · rcases h2 : lexLtB a b with _ | _
    · exact Or.inr rfl
    · have := lexLtB_trans h h2
      rw [lexLtB_irrefl] at this
      exact absurd this (by simp)

instance : IsTrans (List Char) strLe := by
  constructor
  intro a b c hab hbc
  unfold strLe at hab hbc ⊢
  rcases h : lexLtB c a with _ | _
  · rfl
  · exfalso
    rcases lexLtB_total a b with h2 | h2 | h2
    · have := lexLtB_trans h h2
      rw [hbc] at this
      exact Bool.noConfusion this
    · subst h2
      rw [h] at hbc
      exact Bool.noConfusion hbc
    · rw [hab] at h2
      exact Bool.noConfusion h2

/-- Claim C3: the specification says `_normalize_id` collapses every run of
characters outside `[a-z0-9-]` into a hyphen, so its result would contain
only characters from `[a-z0-9-]`.  The code disagrees: the raw-string
pattern `r"[^a-z0-9\\-]+"` places a literal backslash in the kept
character class, so a backslash (code point 92, outside `[a-z0-9-]`)
survives normalization unchanged. -/
theorem normalizeId_keeps_backslash :
    normalizeId (str "a\\b") = str "a\\b" ∧
    '\\' ∈ normalizeId (str "a\\b") ∧ '\\'.toNat = 92 :=
  ⟨by decide, by decide, rfl⟩

/-- Claim C7: the VITS asset picker returns the first present name among
`model.int8.onnx`, `model.fp16.onnx`, `model.onnx`; with none of them
present it returns the unique root `.onnx` file when exactly one exists
and `none` otherwise. -/
theorem vits_pick_preference (root : List (List Char)) :
    (str "model.int8.onnx" ∈ root → pickVitsOnnx root = some (str "model.int8.onnx")) ∧
    (str "model.int8.onnx" ∉ root → str "model.fp16.onnx" ∈ root →
      pickVitsOnnx root = some (str "model.fp16.onnx")) ∧
    (str "model.int8.onnx" ∉ root → str "model.fp16.onnx" ∉ root →
      str "model.onnx" ∈ root → pickVitsOnnx root = some (str "model.onnx")) ∧
    (str "model.int8.onnx" ∉ root → str "model.fp16.onnx" ∉ root →
      str "model.onnx" ∉ root →
      (∀ g, root.filter (fun f => (str ".onnx").isSuffixOf f) = [g] →
        pickVitsOnnx root = some g) ∧
      ((root.filter (fun f => (str ".onnx").isSuffixOf f)).length ≠ 1 →
        pickVitsOnnx root = none)) := by
  refine ⟨fun h1 => ?_, fun h1 h2 => ?_, fun h1 h2 h3 => ?_, fun h1 h2 h3 => ⟨fun g hg => ?_, fun hlen => ?_⟩⟩
  · simp [pickVitsOnnx, pickOne, h1]
  · simp [pickVitsOnnx, pickOne, h1, h2]
  · simp [pickVitsOnnx, pickOne, h1, h2, h3]
  · simp only [pickVitsOnnx, pickOne, if_neg h1, if_neg h2, if_neg h3,
      pickSingleRootOnnx, hg]
  · simp only [pickVitsOnnx, pickOne, if_neg h1, if_neg h2, if_neg h3,
      pickSingleRootOnnx]
    rcases hf : root.filter (fun f => (str ".onnx").isSuffixOf f) with _ | ⟨a, _ | ⟨b, t⟩⟩
    · rfl
    · rw [hf] at hlen
      simp at hlen
    · rfl

/-- Witness for C7, including the spec's own example: among
`{"model.onnx", "model.int8.onnx"}` the quantized file wins. -/
theorem vits_pick_preference_witness :
    pickVitsOnnx [str "model.onnx", str "model.int8.onnx"] = some (str "model.int8.onnx") :=
  (vits_pick_preference [str "model.onnx", str "model.int8.onnx"]).1 (by decide)

/-- Claim C9: a repository whose file listing is unavailable (the `none`
sentinel) contributes no entries, bumps only the gated counter, and the
loop (a total function, hence raise-free) continues with the remaining
repositories. -/
theorem unavailable_repo_skipped (sib : List Char → Option (List (List Char)))
    (st : RunState) (repoId : List Char) (rest : List (List Char))
    (h : sib repoId = none) :
    stepRepo sib st repoId = ⟨st.entries, st.skipped, st.gated + 1⟩ ∧
    runLoop sib (repoId :: rest) st =
      runLoop sib rest ⟨st.entries, st.skipped, st.gated + 1⟩ := by
  constructor
  · simp [stepRepo, h]
  · simp [runLoop, stepRepo, h]

/-- Witness for C9 on a concrete always-unavailable lister. -/
theorem unavailable_repo_skipped_witness :
    stepRepo (fun _ => none) ⟨[], 0, 0⟩ (str "csukuangfj/gated-repo") = ⟨[], 0, 0 + 1⟩ ∧
    runLoop (fun _ => none) [str "csukuangfj/gated-repo"] ⟨[], 0, 0⟩ =
      runLoop (fun _ => none) [] ⟨[], 0, 0 + 1⟩ :=
  unavailable_repo_skipped (fun _ => none) ⟨[], 0, 0⟩ (str "csukuangfj/gated-repo") [] rfl

/-- Claim C1: a qualifying Matcha repository yields exactly two entries
whose ids are the normalized name plus the fixed suffixes, and whose
dependency lists differ in exactly the leading vocoder id, the rest
being shared. -/
theorem matcha_expansion (repoId repoName : List Char) (files : List (List Char))
    (htrig : matchaTrigger repoName files = true)
    (htok : str "tokens.txt" ∈ rootFiles files)
    (acoustic : List Char)
    (hpick : pickMatchaAcoustic (rootFiles files) = some acoustic) :
    ∃ e1 e2 deps,
      classifyRepo repoId repoName files = [e1, e2] ∧
      e1.id = normalizeId repoName ++ str "-hifigan" ∧
      e2.id = normalizeId repoName ++ str "-vocos" ∧
      e1.dependencies = str "sherpa-hifigan-v3" :: deps ∧
      e2.dependencies = str "sherpa-vocos-22khz-univ" :: deps ∧
      str "sherpa-hifigan-v3" ≠ str "sherpa-vocos-22khz-univ" := by
  have hcls : classifyRepo repoId repoName files = matchaEntries repoId repoName files := by
    simp [classifyRepo, htrig]
  rw [hcls]
  simp only [matchaEntries, if_pos htok, hpick]
  exact ⟨_, _, depEspeak files, rfl, rfl, rfl, rfl, rfl, by decide⟩

/-- Witness for C1 on a concrete qualifying Matcha repository. -/
theorem matcha_expansion_witness :
    ∃ e1 e2 deps,
      classifyRepo (str "csukuangfj/matcha-icefall-en_US-ljspeech")
          (str "matcha-icefall-en_US-ljspeech")
          [str "model-steps-3.onnx", str "tokens.txt"] = [e1, e2] ∧
      e1.id = normalizeId (str "matcha-icefall-en_US-ljspeech") ++ str "-hifigan" ∧
      e2.id = normalizeId (str "matcha-icefall-en_US-ljspeech") ++ str "-vocos" ∧
      e1.dependencies = str "sherpa-hifigan-v3" :: deps ∧
      e2.dependencies = str "sherpa-vocos-22khz-univ" :: deps ∧
      str "sherpa-hifigan-v3" ≠ str "sherpa-vocos-22khz-univ" :=
  matcha_expansion (str "csukuangfj/matcha-icefall-en_US-ljspeech")
    (str "matcha-icefall-en_US-ljspeech")
    [str "model-steps-3.onnx", str "tokens.txt"]
    (by decide) (by decide) (str "model-steps-3.onnx") (by decide)

/-- Claim C10: family tests run in the fixed order Matcha, Kokoro, Kitten,
VITS with first match winning: a root `model-steps-<digits>.onnx` file
forces the Matcha branch regardless of the name, and a name containing
several family substrings goes to the earliest matching branch. -/
theorem family_dispatch_order (repoId repoName : List Char) (files : List (List Char)) :
    ((∃ f ∈ rootFiles files, (matchaSteps f).isSome) →
      classifyRepo repoId repoName files = matchaEntries repoId repoName files) ∧
    (matchaTrigger repoName files = false → hasSubstr (str "kokoro") repoName = true →
      classifyRepo repoId repoName files = kokoroEntries repoId repoName files) ∧
    (matchaTrigger repoName files = false → hasSubstr (str "kokoro") repoName = false →
      hasSubstr (str "kitten") repoName = true →
      classifyRepo repoId repoName files = kittenEntries repoId repoName files) ∧
    (matchaTrigger repoName files = false → hasSubstr (str "kokoro") repoName = false →
      hasSubstr (str "kitten") repoName = false → hasSubstr (str "vits") repoName = true →
      classifyRepo repoId repoName files = vitsEntries repoId repoName files) := by
  refine ⟨fun hex => ?_, fun hm hk => ?_, fun hm hk hki => ?_, fun hm hk hki hv => ?_⟩
  · obtain ⟨f, hf, hsome⟩ := hex
    have htrig : matchaTrigger repoName files = true := by
      unfold matchaTrigger
      rw [Bool.or_eq_true, List.any_eq_true]
      exact Or.inr ⟨f, hf, hsome⟩
    simp [classifyRepo, htrig]
  · simp [classifyRepo, hm, hk]
  · simp [classifyRepo, hm, hk, hki]
  · simp [classifyRepo, hm, hk, hki, hv]

/-- Witness for C10: a steps file wins over a kokoro/kitten/vits name, and
among kokoro and kitten name matches the earlier branch (Kokoro) wins. -/
theorem family_dispatch_order_witness :
    classifyRepo (str "csukuangfj/kokoro-kitten-vits") (str "kokoro-kitten-vits")
        [str "model-steps-2.onnx"] =
      matchaEntries (str "csukuangfj/kokoro-kitten-vits") (str "kokoro-kitten-vits")
        [str "model-steps-2.onnx"] ∧
    classifyRepo (str "csukuangfj/vits-kokoro-kitten") (str "vits-kokoro-kitten") [] =
      kokoroEntries (str "csukuangfj/vits-kokoro-kitten") (str "vits-kokoro-kitten") [] :=
  ⟨(family_dispatch_order (str "csukuangfj/kokoro-kitten-vits") (str "kokoro-kitten-vits")
      [str "model-steps-2.onnx"]).1 (by decide),
   (family_dispatch_order (str "csukuangfj/vits-kokoro-kitten") (str "vits-kokoro-kitten")
      []).2.1 (by decide) (by decide)⟩

/-- A name with the `vits-coqui-` prefix contains the substring `vits`. -/
theorem hasSubstr_vits_of_coqui {repoName : List Char}
    (h : (str "vits-coqui-").isPrefixOf repoName = true) :
    hasSubstr (str "vits") repoName = true := by
  rw [List.isPrefixOf_iff_prefix] at h
  obtain ⟨t, ht⟩ := h
  subst ht
  simp [str, hasSubstr, List.isPrefixOf]

/-- Claim C6, counterexample: the Coqui dedup rule lives inside the VITS
branch only, so a non-canonical `vits-coqui-` repository that carries a
root `model-steps-<digits>.onnx` file is classified as Matcha and still
produces entries. -/
theorem coqui_dedup_counterexample :
    (str "vits-coqui-").isPrefixOf (str "vits-coqui-en-other") = true ∧
    str "vits-coqui-en-other" ≠ officialCoquiRepo ∧
    classifyRepo (str "csukuangfj/vits-coqui-en-other") (str "vits-coqui-en-other")
        [str "model-steps-2.onnx", str "tokens.txt"] ≠ [] :=
  ⟨by decide, by decide, by decide⟩

/-- Claim C6 as amended: a non-canonical `vits-coqui-` repository yields
zero entries whenever classification reaches the VITS branch (no Matcha
trigger and no `kokoro`/`kitten` name match); the canonical repository is
handled by the ordinary VITS rules. -/
theorem coqui_dedup_amended (repoId repoName : List Char) (files : List (List Char)) :
    ((str "vits-coqui-").isPrefixOf repoName = true → repoName ≠ officialCoquiRepo →
      matchaTrigger repoName files = false →
      hasSubstr (str "kokoro") repoName = false →
      hasSubstr (str "kitten") repoName = false →
      classifyRepo repoId repoName files = []) ∧
    (matchaTrigger officialCoquiRepo files = false →
      classifyRepo repoId officialCoquiRepo files =
        vitsEntries repoId officialCoquiRepo files) := by
  constructor
  · intro hpre hne hm hk hki
    have hv := hasSubstr_vits_of_coqui hpre
    have hvits : classifyRepo repoId repoName files = vitsEntries repoId repoName files := by
      simp [classifyRepo, hm, hk, hki, hv]
    rw [hvits]
    unfold vitsEntries
    rw [if_pos ⟨hpre, hne⟩]
  · intro hm
    have hk : hasSubstr (str "kokoro") officialCoquiRepo = false := by decide
    have hki : hasSubstr (str "kitten") officialCoquiRepo = false := by decide
    have hv : hasSubstr (str "vits") officialCoquiRepo = true := by decide
    simp [classifyRepo, hm, hk, hki, hv]

/-- Witness for the amended C6: `vits-coqui-en-other` is dropped while the
canonical `vits-coqui-en-ljspeech` goes through the VITS rules. -/
theorem coqui_dedup_amended_witness :
    classifyRepo (str "csukuangfj/vits-coqui-en-other") (str "vits-coqui-en-other")
        [str "tokens.txt", str "model.onnx"] = [] ∧
    classifyRepo (str "csukuangfj/vits-coqui-en-ljspeech") officialCoquiRepo
        [str "tokens.txt", str "model.onnx"] =
      vitsEntries (str "csukuangfj/vits-coqui-en-ljspeech") officialCoquiRepo
        [str "tokens.txt", str "model.onnx"] :=
  ⟨(coqui_dedup_amended (str "csukuangfj/vits-coqui-en-other") (str "vits-coqui-en-other")
      [str "tokens.txt", str "model.onnx"]).1
      (by decide) (by decide) (by decide) (by decide) (by decide),
   (coqui_dedup_amended (str "csukuangfj/vits-coqui-en-ljspeech") (str "x")
      [str "tokens.txt", str "model.onnx"]).2 (by decide)⟩

/-- Claim C8: whichever family branch a repository reaches, missing
required root files (`tokens.txt` for Matcha and VITS, `tokens.txt` and
`voices.bin` for Kokoro and Kitten) or a failed primary-asset pick yields
zero entries. -/
theorem family_gating (repoId repoName : List Char) (files : List (List Char))
    (h :
      (matchaTrigger repoName files = true ∧
        (str "tokens.txt" ∉ rootFiles files ∨
          pickMatchaAcoustic (rootFiles files) = none)) ∨
      (matchaTrigger repoName files = false ∧ hasSubstr (str "kokoro") repoName = true ∧
        (str "tokens.txt" ∉ rootFiles files ∨ str "voices.bin" ∉ rootFiles files ∨
          pickKokoroOnnx (rootFiles files) = none)) ∨
      (matchaTrigger repoName files = false ∧ hasSubstr (str "kokoro") repoName = false ∧
        hasSubstr (str "kitten") repoName = true ∧
        (str "tokens.txt" ∉ rootFiles files ∨ str "voices.bin" ∉ rootFiles files ∨
          pickKittenOnnx (rootFiles files) = none)) ∨
      (matchaTrigger repoName files = false ∧ hasSubstr (str "kokoro") repoName = false ∧
        hasSubstr (str "kitten") repoName = false ∧ hasSubstr (str "vits") repoName = true ∧
        (str "tokens.txt" ∉ rootFiles files ∨
          pickVitsOnnx (rootFiles files) = none))) :
    classifyRepo repoId repoName files = [] := by
  rcases h with ⟨hm, hgate⟩ | ⟨hm, hk, hgate⟩ | ⟨hm, hk, hki, hgate⟩ | ⟨hm, hk, hki, hv, hgate⟩
  · have hcls : classifyRepo repoId repoName files = matchaEntries repoId repoName files := by
      simp [classifyRepo, hm]
    rw [hcls]
    unfold matchaEntries
    rcases hgate with htok | hpick
    · rw [if_neg htok]
    · by_cases htok : str "tokens.txt" ∈ rootFiles files
      · rw [if_pos htok, hpick]
      · rw [if_neg htok]
  · have hcls : classifyRepo repoId repoName files = kokoroEntries repoId repoName files := by
      simp [classifyRepo, hm, hk]
    rw [hcls]
    unfold kokoroEntries
    by_cases hc : str "tokens.txt" ∈ rootFiles files ∧ str "voices.bin" ∈ rootFiles files
    · rcases hgate with htok | hvoi | hpick
      · exact absurd hc.1 htok
      · exact absurd hc.2 hvoi
      · rw [if_pos hc, hpick]
    · rw [if_neg hc]
  · have hcls : classifyRepo repoId repoName files = kittenEntries repoId repoName files := by
      simp [classifyRepo, hm, hk, hki]
    rw [hcls]
    unfold kittenEntries
    by_cases hc : str "tokens.txt" ∈ rootFiles files ∧ str "voices.bin" ∈ rootFiles files
    · rcases hgate with htok | hvoi | hpick
      · exact absurd hc.1 htok
      · exact absurd hc.2 hvoi
      · rw [if_pos hc, hpick]
    · rw [if_neg hc]
  · have hcls : classifyRepo repoId repoName files = vitsEntries repoId repoName files := by
      simp [classifyRepo, hm, hk, hki, hv]
    rw [hcls]
    unfold vitsEntries
    by_cases hcoq : (str "vits-coqui-").isPrefixOf repoName ∧ repoName ≠ officialCoquiRepo
    · rw [if_pos hcoq]
    · rw [if_neg hcoq]
      rcases hgate with htok | hpick
      · rw [if_neg htok]
      · by_cases htok : str "tokens.txt" ∈ rootFiles files
        · rw [if_pos htok, hpick]
        · rw [if_neg htok]

/-- Witness for C8: a Kokoro-named repository without `voices.bin`, and a
Matcha-named repository whose pick fails (no `.onnx` at root at all). -/
theorem family_gating_witness :
    classifyRepo (str "csukuangfj/kokoro-en-v0_19") (str "kokoro-en-v0_19")
        [str "tokens.txt", str "model.onnx"] = [] ∧
    classifyRepo (str "csukuangfj/matcha-icefall-zh") (str "matcha-icefall-zh")
        [str "tokens.txt"] = [] :=
  ⟨family_gating (str "csukuangfj/kokoro-en-v0_19") (str "kokoro-en-v0_19")
      [str "tokens.txt", str "model.onnx"]
      (Or.inr (Or.inl ⟨by decide, by decide, Or.inr (Or.inl (by decide))⟩)),
   family_gating (str "csukuangfj/matcha-icefall-zh") (str "matcha-icefall-zh")
      [str "tokens.txt"]
      (Or.inl ⟨by decide, Or.inr (by decide)⟩)⟩

/-- Membership in the collected `step_files` pairs. -/
theorem mem_filterMap_stepPair {root : List (List Char)} {x : Nat × List Char} :
    x ∈ root.filterMap stepPair ↔ x.2 ∈ root ∧ matchaSteps x.2 = some x.1 := by
  rw [List.mem_filterMap]
  constructor
  · rintro ⟨f, hf, heq⟩
    rcases hms : matchaSteps f with _ | n
    · rw [stepPair, hms] at heq
      exact absurd heq (by simp)
    · rw [stepPair, hms] at heq
      simp only [Option.some.injEq] at heq
      subst heq
      exact ⟨hf, hms⟩
  · rintro ⟨hmem, hms⟩
    exact ⟨x.2, hmem, by rw [stepPair, hms]⟩

/-- Claim C2: the Matcha picker prefers the literal `model-steps-3.onnx`;
otherwise it returns a step checkpoint with the numerically smallest step
count; otherwise `model.onnx`; otherwise the unique root `.onnx` file if
exactly one exists; otherwise nothing. -/
theorem matcha_pick_smallest_steps (root : List (List Char)) :
    (str "model-steps-3.onnx" ∈ root →
      pickMatchaAcoustic root = some (str "model-steps-3.onnx")) ∧
    (str "model-steps-3.onnx" ∉ root →
      ∀ f n, f ∈ root → matchaSteps f = some n →
      ∃ g m, pickMatchaAcoustic root = some g ∧ g ∈ root ∧ matchaSteps g = some m ∧
        ∀ f' n', f' ∈ root → matchaSteps f' = some n' → m ≤ n') ∧
    ((∀ f ∈ root, matchaSteps f = none) → str "model.onnx" ∈ root →
      pickMatchaAcoustic root = some (str "model.onnx")) ∧
    ((∀ f ∈ root, matchaSteps f = none) → str "model.onnx" ∉ root →
      (∀ g, root.filter (fun f => (str ".onnx").isSuffixOf f) = [g] →
        pickMatchaAcoustic root = some g) ∧
      ((root.filter (fun f => (str ".onnx").isSuffixOf f)).length ≠ 1 →
        pickMatchaAcoustic root = none)) := by
  have hempty : (∀ f ∈ root, matchaSteps f = none) → root.filterMap stepPair = [] := by
    intro hall
    rw [List.filterMap_eq_nil_iff]
    intro f hf
    rw [stepPair, hall f hf]
  have hnot3 : (∀ f ∈ root, matchaSteps f = none) → str "model-steps-3.onnx" ∉ root := by
    intro hall hmem
    have h := hall _ hmem
    rw [show matchaSteps (str "model-steps-3.onnx") = some 3 from by decide] at h
    exact Option.noConfusion h
  refine ⟨fun h3 => ?_, fun h3 f n hf hms => ?_, fun hall hmo => ?_,
    fun hall hmo => ⟨fun g hg => ?_, fun hlen => ?_⟩⟩
  · rw [pickMatchaAcoustic, if_pos h3]
  · have hmem : (n, f) ∈ root.filterMap stepPair :=
      mem_filterMap_stepPair.mpr ⟨hf, hms⟩
    have hperm := List.perm_insertionSort stepLe (root.filterMap stepPair)
    have hmem2 : (n, f) ∈ List.insertionSort stepLe (root.filterMap stepPair) :=
      hperm.mem_iff.mpr hmem
    rcases hsort : List.insertionSort stepLe (root.filterMap stepPair) with _ | ⟨x, rest⟩
    · rw [hsort] at hmem2
      exact absurd hmem2 (by simp)
    · have hx : x.2 ∈ root ∧ matchaSteps x.2 = some x.1 := by
        refine mem_filterMap_stepPair.mp (hperm.mem_iff.mp ?_)
        rw [hsort]
        exact List.mem_cons_self x rest
      refine ⟨x.2, x.1, ?_, hx.1, hx.2, ?_⟩
      · rw [pickMatchaAcoustic, if_neg h3, hsort]
      · intro f' n' hf' hms'
        have hmem' : (n', f') ∈ List.insertionSort stepLe (root.filterMap stepPair) :=
          hperm.mem_iff.mpr (mem_filterMap_stepPair.mpr ⟨hf', hms'⟩)
        rw [hsort] at hmem'
        rcases List.mem_cons.mp hmem' with heq | hrest
        · rw [← heq]
        · have hsorted := List.sorted_insertionSort stepLe (root.filterMap stepPair)
          rw [hsort] at hsorted
          exact List.rel_of_sorted_cons hsorted _ hrest
  · rw [pickMatchaAcoustic, if_neg (hnot3 hall), hempty hall]
    simp only [List.insertionSort]
    rw [if_pos hmo]
  · rw [pickMatchaAcoustic, if_neg (hnot3 hall), hempty hall]
    simp only [List.insertionSort]
    rw [if_neg hmo, pickSingleRootOnnx, hg]
  · rw [pickMatchaAcoustic, if_neg (hnot3 hall), hempty hall]
    simp only [List.insertionSort]
    rw [if_neg hmo, pickSingleRootOnnx]
    rcases hf : root.filter (fun f => (str ".onnx").isSuffixOf f) with _ | ⟨a, _ | ⟨b, t⟩⟩
    · rfl
    · rw [hf] at hlen
      simp at hlen
    · rfl

/-- Witness for C2, including the spec's example: among
`{"model-steps-3.onnx", "model-steps-6.onnx"}` the 3-step file wins, and
among `{"model-steps-6.onnx", "model-steps-2.onnx"}` the smallest step
count wins. -/
theorem matcha_pick_smallest_steps_witness :
    pickMatchaAcoustic [str "model-steps-3.onnx", str "model-steps-6.onnx"] =
      some (str "model-steps-3.onnx") ∧
    ∃ g m, pickMatchaAcoustic [str "model-steps-6.onnx", str "model-steps-2.onnx"] = some g ∧
      g ∈ [str "model-steps-6.onnx", str "model-steps-2.onnx"] ∧ matchaSteps g = some m ∧
      ∀ f' n', f' ∈ [str "model-steps-6.onnx", str "model-steps-2.onnx"] →
        matchaSteps f' = some n' → m ≤ n' :=
  ⟨(matcha_pick_smallest_steps [str "model-steps-3.onnx", str "model-steps-6.onnx"]).1
      (by decide),
   (matcha_pick_smallest_steps [str "model-steps-6.onnx", str "model-steps-2.onnx"]).2.1
      (by decide) (str "model-steps-6.onnx") 6 (by decide) (by decide)⟩

/-! ### Normalizer invariants (towards Claim C4) -/

theorem allowedChar_toNat {c : Char} (h : allowedChar c = true) :
    (97 ≤ c.toNat ∧ c.toNat ≤ 122) ∨ (48 ≤ c.toNat ∧ c.toNat ≤ 57) ∨
      c.toNat = 92 ∨ c.toNat = 45 := by
  simp only [allowedChar, isLowerAZ, isDigit09, Bool.or_eq_true, Bool.and_eq_true,
    decide_eq_true_eq] at h
  rcases h with ((⟨h1, h2⟩ | ⟨h1, h2⟩) | h) | h
  · exact Or.inl ⟨h1, h2⟩
  · exact Or.inr (Or.inl ⟨h1, h2⟩)
  · exact Or.inr (Or.inr (Or.inl h))
  · subst h
    exact Or.inr (Or.inr (Or.inr rfl))

theorem ne_char_of_toNat {c d : Char} (h : c.toNat ≠ d.toNat) : c ≠ d :=
  fun he => h (he ▸ rfl)

theorem allowed_not_ws {c : Char} (h : allowedChar c = true) : c.isWhitespace = false := by
  have hn := allowedChar_toNat h
  have h1 : c ≠ ' ' := ne_char_of_toNat (by
    have : (' ').toNat = 32 := rfl
    omega)
  have h2 : c ≠ '\t' := ne_char_of_toNat (by
    have : ('\t').toNat = 9 := rfl
    omega)
  have h3 : c ≠ '\x0d' := ne_char_of_toNat (by
    have : ('\x0d').toNat = 13 := rfl
    omega)
  have h4 : c ≠ '\n' := ne_char_of_toNat (by
    have : ('\n').toNat = 10 := rfl
    omega)
  simp [Char.isWhitespace, h1, h2, h3, h4]

theorem allowed_toLower {c : Char} (h : allowedChar c = true) : c.toLower = c := by
  have hn := allowedChar_toNat h
  unfold Char.toLower
  rw [if_neg]
  omega

theorem allowed_ne_underscore {c : Char} (h : allowedChar c = true) : c ≠ '_' := by
  have hn := allowedChar_toNat h
  exact ne_char_of_toNat (by
    have : ('_').toNat = 95 := rfl
    omega)

theorem allowed_hyphen : allowedChar '-' = true := by decide

theorem mem_subBadRunsAux {c : Char} :
    ∀ (b : Bool) (l : List Char), c ∈ subBadRunsAux b l → allowedChar c = true := by
  intro b l
  induction l generalizing b with
  | nil => intro h; exact absurd h (by simp [subBadRunsAux])
  | cons a as ih =>
    intro h
    by_cases ha : allowedChar a = true
    · rw [subBadRunsAux, if_pos ha] at h
      rcases List.mem_cons.mp h with he | ht
      · exact he ▸ ha
      · exact ih false ht
    · rw [subBadRunsAux, if_neg ha] at h
      rcases hb : b with _ | _
      · rw [hb] at h
        simp only [Bool.false_eq_true, if_false] at h
        rcases List.mem_cons.mp h with he | ht
        · exact he ▸ allowed_hyphen
        · exact ih true ht
      · rw [hb] at h
        simp only [if_true] at h
        exact ih true h

theorem mem_collapseHyphensAux {c : Char} :
    ∀ (b : Bool) (l : List Char), c ∈ collapseHyphensAux b l → c ∈ l := by
  intro b l
  induction l generalizing b with
  | nil => intro h; exact absurd h (by simp [collapseHyphensAux])
  | cons a as ih =>
    intro h
    by_cases ha : a = '-'
    · subst ha
      rw [collapseHyphensAux, if_pos rfl] at h
      rcases hb : b with _ | _
      · rw [hb] at h
        simp only [Bool.false_eq_true, if_false] at h
        rcases List.mem_cons.mp h with he | ht
        · exact he ▸ List.mem_cons_self _ _
        · exact List.mem_cons_of_mem _ (ih true ht)
      · rw [hb] at h
        simp only [if_true] at h
        exact List.mem_cons_of_mem _ (ih true h)
    · rw [collapseHyphensAux, if_neg ha] at h
      rcases List.mem_cons.mp h with he | ht
      · exact he ▸ List.mem_cons_self _ _
      · exact List.mem_cons_of_mem _ (ih false ht)

theorem mem_dropTrailingWhile {c : Char} {p : Char → Bool} :
    ∀ l : List Char, c ∈ dropTrailingWhile p l → c ∈ l := by
  intro l
  induction l with
  | nil => intro h; exact absurd h (by simp [dropTrailingWhile])
  | cons a as ih =>
    intro h
    rw [dropTrailingWhile] at h
    rcases hd : dropTrailingWhile p as with _ | ⟨x, xs⟩
    · rw [hd] at h
      by_cases hp : p a
      · rw [if_pos hp] at h
        exact absurd h (by simp)
      · rw [if_neg hp] at h
        rcases List.mem_cons.mp h with he | ht
        · exact he ▸ List.mem_cons_self _ _
        · exact absurd ht (by simp)
    · rw [hd] at h
      rcases List.mem_cons.mp h with he | ht
      · exact he ▸ List.mem_cons_self _ _
      · exact List.mem_cons_of_mem _ (ih (hd ▸ ht))

theorem noDoubleHyphen_tail {c : Char} {l : List Char}
    (h : noDoubleHyphen (c :: l) = true) : noDoubleHyphen l = true := by
  cases l with
  | nil => rfl
  | cons d ds =>
    rw [noDoubleHyphen, Bool.and_eq_true] at h
    exact h.2

theorem collapseHyphensAux_ok (l : List Char) :
    ∀ b : Bool, noDoubleHyphen (collapseHyphensAux b l) = true ∧
      (b = true → headNotHyphen (collapseHyphensAux b l)) := by
  induction l with
  | nil => intro b; exact ⟨rfl, fun _ => trivial⟩
  | cons c cs ih =>
    intro b
    by_cases hc : c = '-'
    · subst hc
      rcases b with _ | _
      · rw [collapseHyphensAux, if_pos rfl]
        simp only [Bool.false_eq_true, if_false]
        constructor
        · rcases hr : collapseHyphensAux true cs with _ | ⟨d, ds⟩
          · rfl
          · have hhead := (ih true).2 rfl
            rw [hr] at hhead
            have hnd : noDoubleHyphen (d :: ds) = true := by
              have := (ih true).1
              rw [hr] at this
              exact this
            rw [noDoubleHyphen]
            rw [Bool.and_eq_true]
            refine ⟨?_, hnd⟩
            simp only [Bool.not_eq_eq_eq_not, Bool.not_true, Bool.and_eq_false_iff]
            right
            simpa [headNotHyphen] using hhead
        · intro hfalse
          exact absurd hfalse (by simp)
      · rw [collapseHyphensAux, if_pos rfl]
        simp only [if_true]
        exact ⟨(ih true).1, fun _ => (ih true).2 rfl⟩
    · rw [collapseHyphensAux, if_neg hc]
      constructor
      · rcases hr : collapseHyphensAux false cs with _ | ⟨d, ds⟩
        · rfl
        · have hnd : noDoubleHyphen (d :: ds) = true := by
            have := (ih false).1
            rw [hr] at this
            exact this
          rw [noDoubleHyphen, Bool.and_eq_true]
          refine ⟨?_, hnd⟩
          simp [hc]
      · intro _
        exact hc

theorem headNotHyphen_dropWhile (l : List Char) :
    headNotHyphen (l.dropWhile fun c => decide (c = '-')) := by
  induction l with
  | nil => trivial
  | cons a as ih =>
    by_cases ha : a = '-'
    · rw [List.dropWhile_cons, if_pos (by simp [ha])]
      exact ih
    · rw [List.dropWhile_cons, if_neg (by simp [ha])]
      exact ha

theorem dropTrailingWhile_head {p : Char → Bool} (c : Char) (cs : List Char) :
    dropTrailingWhile p (c :: cs) = [] ∨
      ∃ r, dropTrailingWhile p (c :: cs) = c :: r := by
  rw [dropTrailingWhile]
  rcases hd : dropTrailingWhile p cs with _ | ⟨x, xs⟩
  · by_cases hp : p c
    · rw [if_pos hp]
      exact Or.inl rfl
    · rw [if_neg hp]
      exact Or.inr ⟨[], rfl⟩
  · exact Or.inr ⟨x :: xs, rfl⟩

theorem noDoubleHyphen_dropWhile {l : List Char} (h : noDoubleHyphen l = true) :
    noDoubleHyphen (l.dropWhile fun c => decide (c = '-')) = true := by
  induction l with
  | nil => rfl
  | cons a as ih =>
    by_cases ha : a = '-'
    · rw [List.dropWhile_cons, if_pos (by simp [ha])]
      exact ih (noDoubleHyphen_tail h)
    · rw [List.dropWhile_cons, if_neg (by simp [ha])]
      exact h

theorem noDoubleHyphen_dropTrailingWhile {p : Char → Bool} :
    ∀ {l : List Char}, noDoubleHyphen l = true →
      noDoubleHyphen (dropTrailingWhile p l) = true := by
  intro l
  induction l with
  | nil => intro _; rfl
  | cons c cs ih =>
    intro h
    rw [dropTrailingWhile]
    rcases hd : dropTrailingWhile p cs with _ | ⟨x, xs⟩
    · by_cases hp : p c
      · rw [if_pos hp]; rfl
      · rw [if_neg hp]; rfl
    · cases cs with
      | nil => exact absurd hd (by simp [dropTrailingWhile])
      | cons e es =>
        have hih : noDoubleHyphen (x :: xs) = true := by
          have := ih (noDoubleHyphen_tail h)
          rw [hd] at this
          exact this
        have hx : x = e := by
          rcases dropTrailingWhile_head e es (p := p) with h0 | ⟨r, hr⟩
          · rw [h0] at hd
            exact absurd hd (by simp)
          · rw [hr] at hd
            exact (List.cons.injEq _ _ _ _ ▸ hd).1.symm
        rw [noDoubleHyphen, Bool.and_eq_true]
        refine ⟨?_, hih⟩
        have hpair : (!(decide (c = '-') && decide (e = '-'))) = true := by
          rw [noDoubleHyphen, Bool.and_eq_true] at h
          exact h.1
        rw [hx]
        exact hpair

theorem headNotHyphen_dropTrailingWhile {p : Char → Bool} {l : List Char}
    (h : headNotHyphen l) : headNotHyphen (dropTrailingWhile p l) := by
  cases l with
  | nil => trivial
  | cons c cs =>
    rcases dropTrailingWhile_head c cs (p := p) with h0 | ⟨r, hr⟩
    · rw [h0]; trivial
    · rw [hr]; exact h

theorem lastNotHyphen_dropTrailingWhile :
    ∀ l : List Char, lastNotHyphen (dropTrailingWhile (fun c => decide (c = '-')) l) = true := by
  intro l
  induction l with
  | nil => rfl
  | cons c cs ih =>
    rw [dropTrailingWhile]
    rcases hd : dropTrailingWhile (fun c => decide (c = '-')) cs with _ | ⟨x, xs⟩
    · by_cases hp : c = '-'
      · rw [if_pos (by simp [hp])]; rfl
      · rw [if_neg (by simp [hp])]
        simp [lastNotHyphen, hp]
    · have : lastNotHyphen (x :: xs) = true := by
        rw [← hd]; exact ih
      simpa [lastNotHyphen] using this

/-- Every output of the normalizer satisfies the four shape invariants. -/
theorem normalizeId_invariant (s : List Char) :
    (∀ c ∈ normalizeId s, allowedChar c = true) ∧
    noDoubleHyphen (normalizeId s) = true ∧
    headNotHyphen (normalizeId s) ∧
    lastNotHyphen (normalizeId s) = true := by
  simp only [normalizeId, pyStrip, subBadRuns, collapseHyphens]
  refine ⟨?_, ?_, ?_, ?_⟩
  · intro c hc
    have h1 := mem_dropTrailingWhile _ hc
    have h2 := (List.dropWhile_sublist _).subset h1
    have h3 := mem_collapseHyphensAux _ _ h2
    exact mem_subBadRunsAux _ _ h3
  · exact noDoubleHyphen_dropTrailingWhile
      (noDoubleHyphen_dropWhile (collapseHyphensAux_ok _ false).1)
  · exact headNotHyphen_dropTrailingWhile (headNotHyphen_dropWhile _)
  · exact lastNotHyphen_dropTrailingWhile _

/-! ### Fixed points of the normalizer -/

theorem map_id_of_mem {f : Char → Char} :
    ∀ {l : List Char}, (∀ c ∈ l, f c = c) → l.map f = l := by
  intro l
  induction l with
  | nil => intro _; rfl
  | cons a as ih =>
    intro h
    rw [List.map_cons, h a (List.mem_cons_self _ _), ih fun c hc => h c (List.mem_cons_of_mem _ hc)]

theorem dropWhile_eq_self_of_none {p : Char → Bool} {l : List Char}
    (h : ∀ c ∈ l, p c = false) : l.dropWhile p = l := by
  cases l with
  | nil => rfl
  | cons a as => rw [List.dropWhile_cons, h a (List.mem_cons_self _ _)]; simp

theorem dropTrailingWhile_eq_self_of_none {p : Char → Bool} :
    ∀ {l : List Char}, (∀ c ∈ l, p c = false) → dropTrailingWhile p l = l := by
  intro l
  induction l with
  | nil => intro _; rfl
  | cons a as ih =>
    intro h
    rw [dropTrailingWhile, ih fun c hc => h c (List.mem_cons_of_mem _ hc)]
    cases as with
    | nil => rw [h a (List.mem_cons_self _ _)]; rfl
    | cons b bs => rfl

theorem subBadRunsAux_eq_self {l : List Char} (h : ∀ c ∈ l, allowedChar c = true) :
    ∀ b, subBadRunsAux b l = l := by
  induction l with
  | nil => intro b; rfl
  | cons a as ih =>
    intro b
    rw [subBadRunsAux, if_pos (h a (List.mem_cons_self _ _))]
    rw [ih fun c hc => h c (List.mem_cons_of_mem _ hc)]

theorem collapseHyphensAux_eq_self :
    ∀ {l : List Char}, noDoubleHyphen l = true →
      collapseHyphensAux false l = l ∧ (headNotHyphen l → collapseHyphensAux true l = l) := by
  intro l
  induction l with
  | nil => intro _; exact ⟨rfl, fun _ => rfl⟩
  | cons c cs ih =>
    intro h
    have ihcs := ih (noDoubleHyphen_tail h)
    constructor
    · by_cases hc : c = '-'
      · subst hc
        rw [collapseHyphensAux, if_pos rfl]
        simp only [Bool.false_eq_true, if_false]
        have hhead : headNotHyphen cs := by
          cases cs with
          | nil => trivial
          | cons d ds =>
            rw [noDoubleHyphen, Bool.and_eq_true] at h
            have := h.1
            simp only [Bool.not_eq_eq_eq_not, Bool.not_true, Bool.and_eq_false_iff,
              decide_eq_false_iff_not] at this
            rcases this with h1 | h1
            · exact absurd trivial h1
            · exact h1
        rw [ihcs.2 hhead]
      · rw [collapseHyphensAux, if_neg hc, ihcs.1]
    · intro hhead
      have hc : c ≠ '-' := hhead
      rw [collapseHyphensAux, if_neg hc, ihcs.1]

theorem dropWhile_hyphen_eq_self {l : List Char} (h : headNotHyphen l) :
    l.dropWhile (fun c => decide (c = '-')) = l := by
  cases l with
  | nil => rfl
  | cons a as =>
    rw [List.dropWhile_cons, if_neg (by simpa using h)]

theorem dropTrailingWhile_hyphen_eq_self :
    ∀ {l : List Char}, lastNotHyphen l = true →
      dropTrailingWhile (fun c => decide (c = '-')) l = l := by
  intro l
  induction l with
  | nil => intro _; rfl
  | cons c cs ih =>
    intro h
    cases cs with
    | nil =>
      have hc : ¬(c = '-') := by simpa [lastNotHyphen] using h
      rw [dropTrailingWhile]
      simp [dropTrailingWhile, hc]
    | cons d ds =>
      have hlast : lastNotHyphen (d :: ds) = true := by
        simpa [lastNotHyphen] using h
      rw [dropTrailingWhile, ih hlast]

/-- A string satisfying the four invariants is a fixed point of the
normalizer. -/
theorem normalizeId_fixed {l : List Char}
    (hall : ∀ c ∈ l, allowedChar c = true)
    (hnd : noDoubleHyphen l = true)
    (hhead : headNotHyphen l)
    (hlast : lastNotHyphen l = true) :
    normalizeId l = l := by
  simp only [normalizeId, pyStrip, subBadRuns, collapseHyphens]
  rw [dropWhile_eq_self_of_none fun c hc => allowed_not_ws (hall c hc)]
  rw [dropTrailingWhile_eq_self_of_none fun c hc => allowed_not_ws (hall c hc)]
  rw [map_id_of_mem fun c hc => allowed_toLower (hall c hc)]
  rw [show underscoreToHyphen l = l from
    map_id_of_mem fun c hc => if_neg (allowed_ne_underscore (hall c hc))]
  rw [subBadRunsAux_eq_self hall false]
  rw [(collapseHyphensAux_eq_self hnd).1]
  rw [dropWhile_hyphen_eq_self hhead]
  exact dropTrailingWhile_hyphen_eq_self hlast

/-- Claim C4: `_normalize_id` is idempotent (and total by construction). -/
theorem normalizeId_idempotent (s : List Char) :
    normalizeId (normalizeId s) = normalizeId s :=
  normalizeId_fixed (normalizeId_invariant s).1 (normalizeId_invariant s).2.1
    (normalizeId_invariant s).2.2.1 (normalizeId_invariant s).2.2.2

/-! ### Assembler lemmas (towards Claim C5) -/

theorem lookupById_upsert (m : List (List Char × Entry)) (k k' : List Char) (v : Entry) :
    lookupById (upsert m k v) k' = if k' = k then some v else lookupById m k' := by
  induction m with
  | nil =>
    show lookupById [(k, v)] k' = _
    simp only [lookupById]
    by_cases h : k' = k
    · rw [if_pos h.symm, if_pos h]
    · rw [if_neg (fun he => h he.symm), if_neg h]
  | cons p rest ih =>
    obtain ⟨k0, v0⟩ := p
    simp only [upsert]
    by_cases h0 : k0 = k
    · rw [if_pos h0]
      simp only [lookupById]
      by_cases h : k' = k
      · rw [if_pos (h0.trans h.symm), if_pos h]
      · rw [if_neg (fun he : k0 = k' => h (he.symm.trans h0)), if_neg h,
          if_neg (fun he : k0 = k' => h (he.symm.trans h0))]
    · rw [if_neg h0]
      simp only [lookupById]
      rw [ih]
      by_cases h1 : k0 = k'
      · rw [if_pos h1, if_pos h1, if_neg (fun he : k' = k => h0 (h1.trans he))]
      · rw [if_neg h1, if_neg h1]

theorem mem_keys_upsert {m : List (List Char × Entry)} {k k' : List Char} {v : Entry} :
    k' ∈ (upsert m k v).map Prod.fst ↔ k' ∈ m.map Prod.fst ∨ k' = k := by
  induction m with
  | nil => simp [upsert]
  | cons p rest ih =>
    obtain ⟨k0, v0⟩ := p
    simp only [upsert]
    by_cases h0 : k0 = k
    · rw [if_pos h0, ← h0]
      simp only [List.map_cons, List.mem_cons]
      constructor
      · rintro (h | h)
        · exact Or.inr h
        · exact Or.inl (Or.inr h)
      · rintro ((h | h) | h)
        · exact Or.inl h
        · exact Or.inr h
        · exact Or.inl h
    · rw [if_neg h0]
      simp only [List.map_cons, List.mem_cons, ih]
      tauto

theorem nodup_keys_upsert {m : List (List Char × Entry)} {k : List Char} {v : Entry}
    (h : (m.map Prod.fst).Nodup) : ((upsert m k v).map Prod.fst).Nodup := by
  induction m with
  | nil => simp [upsert]
  | cons p rest ih =>
    obtain ⟨k0, v0⟩ := p
    rw [List.map_cons, List.nodup_cons] at h
    simp only [upsert]
    by_cases h0 : k0 = k
    · rw [if_pos h0, List.map_cons, List.nodup_cons]
      exact h
    · rw [if_neg h0, List.map_cons, List.nodup_cons]
      constructor
      · intro hmem
        rcases mem_keys_upsert.mp hmem with hmem2 | heq
        · exact h.1 hmem2
        · exact h0 heq
      · exact ih h.2

theorem mem_upsert {m : List (List Char × Entry)} {k : List Char} {v : Entry} {p} :
    p ∈ upsert m k v → p ∈ m ∨ p = (k, v) := by
  induction m with
  | nil => intro h; simpa [upsert] using h
  | cons q rest ih =>
    obtain ⟨k0, v0⟩ := q
    by_cases h0 : k0 = k
    · intro h
      simp only [upsert] at h
      rw [if_pos h0] at h
      rcases List.mem_cons.mp h with he | ht
      · exact Or.inr (he.trans (by rw [h0]))
      · exact Or.inl (List.mem_cons_of_mem _ ht)
    · intro h
      simp only [upsert] at h
      rw [if_neg h0] at h
      rcases List.mem_cons.mp h with he | ht
      · exact Or.inl (he ▸ List.mem_cons_self _ _)
      · rcases ih ht with h1 | h1
        · exact Or.inl (List.mem_cons_of_mem _ h1)
        · exact Or.inr h1

theorem nodup_keys_buildFold :
    ∀ (es : List Entry) (m : List (List Char × Entry)),
      (m.map Prod.fst).Nodup →
      ((es.foldl (fun m e => upsert m e.id e) m).map Prod.fst).Nodup := by
  intro es
  induction es with
  | nil => intro m h; exact h
  | cons e rest ih =>
    intro m h
    rw [List.foldl_cons]
    exact ih _ (nodup_keys_upsert h)

theorem pairinv_buildFold :
    ∀ (es : List Entry) (m : List (List Char × Entry)),
      (∀ p ∈ m, (Prod.snd p).id = Prod.fst p) →
      ∀ p ∈ es.foldl (fun m e => upsert m e.id e) m, (Prod.snd p).id = Prod.fst p := by
  intro es
  induction es with
  | nil => intro m h; exact h
  | cons e rest ih =>
    intro m h
    rw [List.foldl_cons]
    refine ih _ ?_
    intro p hp
    rcases mem_upsert hp with h1 | h1
    · exact h p h1
    · rw [h1]

theorem findLastById_cons_none {e : Entry} {rest : List Entry} {k : List Char}
    (h : findLastById rest k = none) :
    findLastById (e :: rest) k = if e.id = k then some e else none := by
  simp only [findLastById]
  rw [h]

theorem findLastById_cons_some {e : Entry} {rest : List Entry} {k : List Char} {r : Entry}
    (h : findLastById rest k = some r) :
    findLastById (e :: rest) k = some r := by
  simp only [findLastById]
  rw [h]

theorem lookupById_buildFold :
    ∀ (es : List Entry) (m : List (List Char × Entry)) (k : List Char),
      (findLastById es k = none →
        lookupById (es.foldl (fun m e => upsert m e.id e) m) k = lookupById m k) ∧
      (∀ r, findLastById es k = some r →
        lookupById (es.foldl (fun m e => upsert m e.id e) m) k = some r) := by
  intro es
  induction es with
  | nil =>
    intro m k
    exact ⟨fun _ => rfl, fun r hr => absurd hr (by simp [findLastById])⟩
  | cons e rest ih =>
    intro m k
    constructor
    · intro hnone
      rw [List.foldl_cons]
      rcases hfl : findLastById rest k with _ | r
      · have hnone' : (if e.id = k then some e else none) = (none : Option Entry) := by
          rw [← findLastById_cons_none hfl]
          exact hnone
        have hne : ¬(e.id = k) := by
          intro he
          rw [if_pos he] at hnone'
          exact Option.noConfusion hnone'
        rw [(ih (upsert m e.id e) k).1 hfl, lookupById_upsert,
          if_neg (fun he : k = e.id => hne he.symm)]
      · rw [findLastById_cons_some hfl] at hnone
        exact absurd hnone (by simp)
    · intro r hr
      rw [List.foldl_cons]
      rcases hfl : findLastById rest k with _ | r0
      · have hr' : (if e.id = k then some e else none) = some r := by
          rw [← findLastById_cons_none hfl]
          exact hr
        have he : e.id = k ∧ e = r := by
          by_cases he0 : e.id = k
          · rw [if_pos he0] at hr'
            injection hr' with hr'
            exact ⟨he0, hr'⟩
          · rw [if_neg he0] at hr'
            exact absurd hr' (by simp)
        rw [(ih (upsert m e.id e) k).1 hfl, lookupById_upsert,
          if_pos (he.1 ▸ rfl : k = e.id), he.2]
      · rw [findLastById_cons_some hfl] at hr
        injection hr with hr
        exact ((ih (upsert m e.id e) k).2 r0 hfl).trans (by rw [hr])

theorem lookupById_some_mem {m : List (List Char × Entry)} {k : List Char} {v : Entry}
    (h : lookupById m k = some v) : (k, v) ∈ m := by
  induction m with
  | nil => exact absurd h (by simp [lookupById])
  | cons p rest ih =>
    obtain ⟨k0, v0⟩ := p
    simp only [lookupById] at h
    by_cases h0 : k0 = k
    · rw [if_pos h0] at h
      subst h0
      injection h with h
      subst h
      exact List.mem_cons_self _ _
    · rw [if_neg h0] at h
      exact List.mem_cons_of_mem _ (ih h)

theorem lookupById_isSome_iff {m : List (List Char × Entry)} {k : List Char} :
    (lookupById m k).isSome = true ↔ k ∈ m.map Prod.fst := by
  induction m with
  | nil => simp [lookupById]
  | cons p rest ih =>
    obtain ⟨k0, v0⟩ := p
    simp only [lookupById, List.map_cons, List.mem_cons]
    by_cases h0 : k0 = k
    · rw [if_pos h0]
      constructor
      · intro _
        exact Or.inl h0.symm
      · intro _
        rfl
    · rw [if_neg h0, ih]
      constructor
      · exact fun h => Or.inr h
      · rintro (h | h)
        · exact absurd h.symm h0
        · exact h

theorem map_id_filterMap_lookup {bm : List (List Char × Entry)}
    (hinv : ∀ p ∈ bm, (Prod.snd p).id = Prod.fst p) :
    ∀ ks : List (List Char), (∀ k ∈ ks, (lookupById bm k).isSome = true) →
      (ks.filterMap (lookupById bm)).map Entry.id = ks := by
  intro ks
  induction ks with
  | nil => intro _; rfl
  | cons k kt ih =>
    intro h
    have hk := h k (List.mem_cons_self _ _)
    rcases hv : lookupById bm k with _ | v
    · rw [hv] at hk
      exact absurd hk (by simp)
    · rw [List.filterMap_cons, hv]
      simp only [List.map_cons]
      rw [ih fun x hx => h x (List.mem_cons_of_mem _ hx)]
      have := hinv (k, v) (lookupById_some_mem hv)
      simp only at this
      rw [this]

/-- Claim C5: the assembled model list is the fixed entries followed by the
dynamic entries deduplicated by id (last writer wins), sorted in ascending
lexical id order; no two dynamic output entries share an id. -/
theorem assembler_spec (fixed dyn : List Entry) :
    assembleModels fixed dyn = fixed ++ dynEntriesOf dyn ∧
    List.Pairwise (fun e1 e2 => e1.id ≠ e2.id) (dynEntriesOf dyn) ∧
    List.Sorted strLe ((dynEntriesOf dyn).map Entry.id) ∧
    (∀ e ∈ dynEntriesOf dyn, findLastById dyn e.id = some e) ∧
    (∀ e ∈ dyn, ∃ e2 ∈ dynEntriesOf dyn, e2.id = e.id) := by
  have hnodupKeys : ((buildById dyn).map Prod.fst).Nodup :=
    nodup_keys_buildFold dyn [] (by simp)
  have hinv : ∀ p ∈ buildById dyn, (Prod.snd p).id = Prod.fst p :=
    pairinv_buildFold dyn [] (by simp)
  have hperm : List.Perm (List.insertionSort strLe ((buildById dyn).map Prod.fst))
      ((buildById dyn).map Prod.fst) :=
    List.perm_insertionSort strLe _
  have hnodupSorted : (List.insertionSort strLe ((buildById dyn).map Prod.fst)).Nodup :=
    hperm.nodup_iff.mpr hnodupKeys
  have hsorted : List.Sorted strLe (List.insertionSort strLe ((buildById dyn).map Prod.fst)) :=
    List.sorted_insertionSort strLe _
  have hlookA : ∀ k, findLastById dyn k = none → lookupById (buildById dyn) k = none :=
    fun k h => (lookupById_buildFold dyn [] k).1 h
  have hlookB : ∀ k r, findLastById dyn k = some r → lookupById (buildById dyn) k = some r :=
    fun k r h => (lookupById_buildFold dyn [] k).2 r h
  have hall : ∀ k ∈ List.insertionSort strLe ((buildById dyn).map Prod.fst),
      (lookupById (buildById dyn) k).isSome = true := by
    intro k hk
    exact lookupById_isSome_iff.mpr (hperm.mem_iff.mp hk)
  have hmapid : (dynEntriesOf dyn).map Entry.id =
      List.insertionSort strLe ((buildById dyn).map Prod.fst) := by
    simp only [dynEntriesOf, pySorted]
    exact map_id_filterMap_lookup hinv _ hall
  refine ⟨rfl, ?_, ?_, ?_, ?_⟩
  · have h := hnodupSorted
    rw [← hmapid] at h
    exact List.pairwise_map.mp h
  · rw [hmapid]
    exact hsorted
  · intro e he
    simp only [dynEntriesOf, pySorted] at he
    obtain ⟨k, hk, hlk⟩ := List.mem_filterMap.mp he
    have hid : e.id = k := hinv (k, e) (lookupById_some_mem hlk)
    rw [hid]
    rcases hfl : findLastById dyn k with _ | r
    · rw [hlookA k hfl] at hlk
      exact absurd hlk (by simp)
    · have h2 := hlookB k r hfl
      rw [hlk] at h2
      injection h2 with h2
      rw [h2]
  · intro e he
    have hfl : (findLastById dyn e.id).isSome = true := by
      clear hnodupKeys hinv hperm hnodupSorted hsorted hlookA hlookB hall hmapid
      induction dyn with
      | nil => exact absurd he (by simp)
      | cons a as ih =>
        rw [findLastById]
        rcases h : findLastById as e.id with _ | r
        · rcases List.mem_cons.mp he with he1 | he2
          · rw [if_pos (by rw [he1])]
            rfl
          · have := ih he2
            rw [h] at this
            exact absurd this (by simp)
        · rfl
    have hsome : (lookupById (buildById dyn) e.id).isSome = true := by
      rcases h : findLastById dyn e.id with _ | r
      · rw [h] at hfl
        exact absurd hfl (by simp)
      · rw [hlookB e.id r h]
        rfl
    have hkmem : e.id ∈ (buildById dyn).map Prod.fst := lookupById_isSome_iff.mp hsome
    have hkmem2 : e.id ∈ List.insertionSort strLe ((buildById dyn).map Prod.fst) :=
      hperm.mem_iff.mpr hkmem
    rcases hv : lookupById (buildById dyn) e.id with _ | v
    · rw [hv] at hsome
      exact absurd hsome (by simp)
    · refine ⟨v, ?_, ?_⟩
      · simp only [dynEntriesOf, pySorted]
        exact List.mem_filterMap.mpr ⟨e.id, hkmem2, hv⟩
      · exact hinv (e.id, v) (lookupById_some_mem hv)

/-- Witness for C5 on a concrete entry list with a duplicated id: the
later entry wins, output ids are unique, and every input id survives. -/
theorem assembler_spec_witness :
    findLastById
        [makeEntry (str "b") [] [] [] [] [] [] [] [] [],
         makeEntry (str "a") [] [] [] [] [] [] [] [] (str "one"),
         makeEntry (str "a") [] [] [] [] [] [] [] [] (str "two")]
        (makeEntry (str "a") [] [] [] [] [] [] [] [] (str "two")).id =
      some (makeEntry (str "a") [] [] [] [] [] [] [] [] (str "two")) ∧
    ∃ e2 ∈ dynEntriesOf
        [makeEntry (str "b") [] [] [] [] [] [] [] [] [],
         makeEntry (str "a") [] [] [] [] [] [] [] [] (str "one"),
         makeEntry (str "a") [] [] [] [] [] [] [] [] (str "two")],
      e2.id = (makeEntry (str "a") [] [] [] [] [] [] [] [] (str "one")).id :=
  ⟨(assembler_spec []
      [makeEntry (str "b") [] [] [] [] [] [] [] [] [],
       makeEntry (str "a") [] [] [] [] [] [] [] [] (str "one"),
       makeEntry (str "a") [] [] [] [] [] [] [] [] (str "two")]).2.2.2.1
      (makeEntry (str "a") [] [] [] [] [] [] [] [] (str "two")) (by decide),
   (assembler_spec []
      [makeEntry (str "b") [] [] [] [] [] [] [] [] [],
       makeEntry (str "a") [] [] [] [] [] [] [] [] (str "one"),
       makeEntry (str "a") [] [] [] [] [] [] [] [] (str "two")]).2.2.2.2
      (makeEntry (str "a") [] [] [] [] [] [] [] [] (str "one")) (by decide)⟩

end SherpaCatalog
